import Mathlib

/-!
Verification of the TerminalTask task/PR reconciliation engine.

The definitions below are a shallow embedding of the Python sources:

* `src/tt/infra/sqlite.py`  — the `Database` class (tables `tasks` and `prs`
  with sqlite AUTOINCREMENT row ids; foreign keys are declared in the schema
  but sqlite does not enforce them because the code never issues
  `PRAGMA foreign_keys = ON`).
* `src/tt/core/ids.py`      — the `IDGenerator` class.
* `src/tt/infra/github.py`  — the `GitHubIntegration` class (the `gh`
  subprocess and JSON parsing are modelled as oracles in `GhEnv`).
* `src/tt/tui/screens/pr_inbox.py` — the reconciliation filter of
  `PRInboxScreen.scan_for_prs`.

Machine integers pose no overflow issue here (Python ints are unbounded and
sqlite row ids stay tiny), so row ids and PR numbers are `Nat`.
-/

/-! ## Data model: rows of the two sqlite tables -/

/-- A row of the `tasks` table: `id INTEGER PRIMARY KEY AUTOINCREMENT`,
`code TEXT UNIQUE NOT NULL`, `status TEXT NOT NULL`,
`created_at DATETIME NOT NULL`. -/
structure TaskRow where
  id : Nat
  code : String
  status : String
  created_at : String
deriving DecidableEq, Repr

/-- A row of the `prs` table: `id INTEGER PRIMARY KEY AUTOINCREMENT`,
`task_code TEXT NOT NULL`, `repo TEXT NOT NULL`, `pr_number INTEGER NOT NULL`,
`title TEXT NOT NULL`, `body TEXT` (nullable), `created_at DATETIME NOT NULL`. -/
structure PRRow where
  id : Nat
  task_code : String
  repo : String
  pr_number : Nat
  title : String
  body : Option String
  created_at : String
deriving DecidableEq, Repr

/-- The database state.  `task_seq` and `pr_seq` model the sqlite
AUTOINCREMENT sequences: the largest row id ever assigned in each table
(sqlite never reuses an AUTOINCREMENT row id, even after deletes).
Rows are kept in insertion order, so list order is row-id order. -/
structure DB where
  tasks : List TaskRow
  prs : List PRRow
  task_seq : Nat
  pr_seq : Nat
deriving DecidableEq, Repr

/-- The freshly initialised database (`Database._init_db` creates empty tables). -/
def DB.empty : DB := ⟨[], [], 0, 0⟩

/-! ## Database operations (`src/tt/infra/sqlite.py`) -/

/-- Model of `Database.create_task`: an INSERT into `tasks` of a row with
status open and the given timestamp.  The `UNIQUE` constraint on `code`
makes the insert raise `sqlite3.IntegrityError` when the code already
exists; the error branch models that exception (nothing is written then). -/
def create_task (st : DB) (code : String) (created_at : String) :
    Except String (TaskRow × DB) :=
  if st.tasks.any (fun t => t.code == code) then
    Except.error "UNIQUE constraint failed: tasks.code"
  else
    let row : TaskRow := ⟨st.task_seq + 1, code, "open", created_at⟩
    Except.ok (row, { st with tasks := st.tasks ++ [row], task_seq := st.task_seq + 1 })

/-- Model of `Database.get_next_task_number`: `SELECT MAX(id) as max_id FROM tasks`,
then `max_id + 1` with a NULL result treated as `0`.  Note this is the
maximum row id of the rows *currently present*, not the AUTOINCREMENT
sequence and not the numeric suffix of any task code. -/
def get_next_task_number (st : DB) : Nat :=
  (st.tasks.foldl (fun acc t => max acc t.id) 0) + 1

/-- Model of `Database.get_prs_for_task`: `SELECT ... FROM prs WHERE task_code = ?`. -/
def get_prs_for_task (st : DB) (task_code : String) : List PRRow :=
  st.prs.filter (fun p => p.task_code == task_code)

/-- Model of `Database.create_pr`: inserts the PR row, then runs the
UPDATE that sets the status of the task whose code matches to linked, and
returns the new record.  No existence check is performed on `task_code` and sqlite does not
enforce the declared foreign key (the connection never enables it), so the
insert succeeds even when no task has this code. -/
def create_pr (st : DB) (task_code : String) (repo : String) (pr_number : Nat)
    (title : String) (body : Option String) (created_at : String) : PRRow × DB :=
  let row : PRRow := ⟨st.pr_seq + 1, task_code, repo, pr_number, title, body, created_at⟩
  ( row
  , { st with
      prs := st.prs ++ [row]
      tasks := st.tasks.map (fun t => if t.code == task_code then { t with status := "linked" } else t)
      pr_seq := st.pr_seq + 1 } )

/-- Model of `Database.delete_task`: `SELECT id FROM tasks WHERE code = ?`; if no row,
return `False`; otherwise `DELETE FROM prs WHERE task_code = ?` then
`DELETE FROM tasks WHERE code = ?` and return `True`. -/
def delete_task (st : DB) (code : String) : Bool × DB :=
  match st.tasks.find? (fun t => t.code == code) with
  | none => (false, st)
  | some _ =>
    ( true
    , { st with
        prs := st.prs.filter (fun p => !(p.task_code == code))
        tasks := st.tasks.filter (fun t => !(t.code == code)) } )

/-- A row of the `Database.get_all_tasks` result: the `LEFT JOIN` of `tasks`
with `prs` on `t.code = p.task_code`; the three PR columns are NULL for a
task with no links. -/
structure TaskListRow where
  id : Nat
  code : String
  status : String
  created_at : String
  pr_number : Option Nat
  pr_title : Option String
  pr_body : Option String
deriving DecidableEq, Repr

/-- The rows the `LEFT JOIN` of `Database.get_all_tasks` produces for one
task: one row per PR row matching `t.code = p.task_code`, or a single row
with NULL PR columns when no PR matches. -/
def taskJoinBlock (st : DB) (t : TaskRow) : List TaskListRow :=
  let ps := st.prs.filter (fun p => p.task_code == t.code)
  if ps.isEmpty then
    [⟨t.id, t.code, t.status, t.created_at, none, none, none⟩]
  else
    ps.map (fun p => ⟨t.id, t.code, t.status, t.created_at, some p.pr_number, some p.title, p.body⟩)

/-- Model of `Database.get_all_tasks`:
`SELECT t.id, t.code, t.status, t.created_at, p.pr_number, p.title, p.body
FROM tasks t LEFT JOIN prs p ON t.code = p.task_code ORDER BY t.id DESC`.
Tasks are emitted in descending internal-id order, each contributing its
join block. -/
def get_all_tasks (st : DB) : List TaskListRow :=
  (st.tasks.mergeSort (fun a b => decide (b.id ≤ a.id))).flatMap (taskJoinBlock st)

/-! ## Identifier generation (`src/tt/core/ids.py`) -/

/-- Model of `IDGenerator.generate_next_id`: formats `get_next_task_number` as
`tt-<number>`. -/
def generate_next_id (st : DB) : String :=
  "tt-" ++ toString (get_next_task_number st)

/-- Model of `IDGenerator.create_task_with_id`: generates the next id and creates the
task, returning the id together with the task record. -/
def create_task_with_id (st : DB) (created_at : String) :
    Except String ((String × TaskRow) × DB) :=
  let task_id := generate_next_id st
  match create_task st task_id created_at with
  | Except.error e => Except.error e
  | Except.ok (row, st1) => Except.ok ((task_id, row), st1)

/-! ## Operation traces over the store

The public mutating operations reachable from the UI: id-generated creation
(`IDGenerator.create_task_with_id`), direct creation at a given code
(importing calls `Database.create_task` with a code found in the repo),
PR linking (`Database.create_pr`) and deletion (`Database.delete_task`).
A failed create (duplicate code) raises in Python and leaves the store
unchanged.  `stepLog` also records each successfully assigned task code. -/

inductive Op where
  | createAuto : Op
  | createTask (code : String) : Op
  | createPR (task_code : String) (repo : String) (pr_number : Nat)
      (title : String) (body : Option String) : Op
  | deleteTask (code : String) : Op
deriving DecidableEq, Repr

/-- One operation applied to the store; returns the new state and the list of
task codes assigned by this step (empty when nothing was created). -/
def stepLog (st : DB) : Op → DB × List String
  | Op.createAuto =>
    match create_task_with_id st "" with
    | Except.ok ((task_id, _), st1) => (st1, [task_id])
    | Except.error _ => (st, [])
  | Op.createTask code =>
    match create_task st code "" with
    | Except.ok (_, st1) => (st1, [code])
    | Except.error _ => (st, [])
  | Op.createPR task_code repo pr_number title body =>
    ((create_pr st task_code repo pr_number title body "").2, [])
  | Op.deleteTask code => ((delete_task st code).2, [])

/-- Run a list of operations from the empty store, accumulating the log of
assigned task codes. -/
def runOps (ops : List Op) : DB × List String :=
  ops.foldl (fun acc op =>
    let r := stepLog acc.1 op
    (r.1, acc.2 ++ r.2)) (DB.empty, [])

/-! ## Spec-side definition for the next-number claim

The spec describes `next_task_number()` as `max(existing numeric suffixes) + 1`
(or `1` when no task exists).  This definition follows the spec text, for
comparison with `get_next_task_number` above; task codes have the shape
`tt-<digits>`, so the numeric suffix is the decimal value of the characters
after the first three characters. -/

/-- Decimal value of a digit string. -/
def digitsVal (ds : List Char) : Nat :=
  ds.foldl (fun n c => n * 10 + (c.toNat - Char.toNat '0')) 0

/-- Numeric suffix of a task code of the form `tt-<digits>`. -/
def codeSuffixVal (code : String) : Nat :=
  digitsVal (code.data.drop 3)

/-- Spec-side definition (from the spec words): the maximum numeric suffix of
the existing task codes, plus one, or `1` when no tasks exist. -/
def spec_next_task_number (st : DB) : Nat :=
  if st.tasks.isEmpty then 1
  else (st.tasks.map (fun t => codeSuffixVal t.code)).foldl max 0 + 1

/-- The invariant maintained by the public mutating operations:
every task marked `linked` has at least one PR row referencing its code,
and every task status is either `open` or `linked`. -/
def LinkedHasLink (st : DB) : Prop :=
  ∀ t ∈ st.tasks,
    (t.status = "linked" → ∃ p ∈ st.prs, p.task_code = t.code)
    ∧ (t.status = "open" ∨ t.status = "linked")

/-- A concrete store used to instantiate the `get_all_tasks` theorem:
two tasks, the first with two PR links. -/
def exDB : DB :=
  ⟨[⟨1, "tt-1", "linked", ""⟩, ⟨2, "tt-2", "open", ""⟩],
   [⟨1, "tt-1", "o/r", 5, "A", none, ""⟩, ⟨2, "tt-1", "o/r", 6, "B", none, ""⟩],
   2, 2⟩

/-! ## Remote scanner (`src/tt/infra/github.py`)

The `gh` CLI subprocess and `json.loads` are modelled as oracles inside
`GhEnv`; everything after parsing is embedded directly. -/

/-- A parsed element of the `gh pr list --json number,title,body,headRefName`
output.  Each field models `pr.get(key)` on the JSON dictionary: absent keys
give `none` (the code reads them with default `""`, and `pr.get("number")`
with default `None`). -/
structure PRJson where
  number : Option Nat
  title : Option String
  body : Option String
  headRefName : Option String
deriving DecidableEq, Repr

/-- Model of `pr.get(key, "")` on an optional string field. -/
def jsonStr (o : Option String) : String := o.getD ""

/-- The Python word-character class on ASCII text: letters, digits and underscore. -/
def isWordChar (c : Char) : Bool := c.isAlpha || c.isDigit || c == '_'

/-- A character matching the literal `t` under `re.IGNORECASE`. -/
def isTT (c : Char) : Bool := c == 't' || c == 'T'

/-- Attempt to match the regex `tt-(\d+)\b` (case-insensitive `tt`, longest
digit run, trailing word boundary) at the head of `s`; on success returns
the digit group and the remaining suffix after the digits. -/
def ttMatch? (s : List Char) : Option (List Char × List Char) :=
  match s with
  | t1 :: t2 :: h :: rest =>
    if isTT t1 && isTT t2 && h == '-' then
      let ds := rest.takeWhile Char.isDigit
      let rest2 := rest.dropWhile Char.isDigit
      if ds.isEmpty then none
      else
        match rest2 with
        | [] => some (ds, rest2)
        | c :: _ => if isWordChar c then none else some (ds, rest2)
    else none
  | _ => none

/-- Left-to-right scan implementing the findall of the case-insensitive pattern `\btt-(\d+)\b`:
at each position, the pattern can only start when the previous character is
not a word character (the leading `\b`; `prevWord` carries the word-ness of
the character just before the current position, `false` at the start of the
string).  No occurrence can begin strictly inside another match (the second
`t` is preceded by a word character and the remaining matched characters are
`-` and digits), so advancing one character at a time reports exactly the
matches `re.findall` reports. -/
def ttScanAux : Bool → List Char → List (List Char)
  | _, [] => []
  | prevWord, c :: cs =>
    match ttMatch? (c :: cs) with
    | some (d, _) =>
      if prevWord then ttScanAux (isWordChar c) cs
      else d :: ttScanAux (isWordChar c) cs
    | none => ttScanAux (isWordChar c) cs

/-- All digit groups of whole-word `tt-<digits>` occurrences in `s`, in
textual order. -/
def ttFindAll (s : String) : List (List Char) := ttScanAux false s.data

/-- The last character of `l`, if any, is not a word character (vacuously
true for the empty list). -/
def NonWordBreak (l : List Char) : Prop :=
  ∀ c, l.getLast? = some c → isWordChar c = false

/-- The first character of `l`, if any, is not a word character. -/
def NonWordHead (l : List Char) : Prop :=
  ∀ c, l.head? = some c → isWordChar c = false

/-- Spec-side notion of a whole-word task-reference occurrence: the token
`tt-<d>` (case-insensitive `tt`, nonempty digit group `d`) appears in `s`
delimited by word boundaries on both sides. -/
def OccursAsToken (d s : List Char) : Prop :=
  ∃ pre t1 t2 post,
    s = pre ++ t1 :: t2 :: '-' :: (d ++ post)
    ∧ isTT t1 = true ∧ isTT t2 = true
    ∧ d ≠ [] ∧ (∀ c ∈ d, c.isDigit = true)
    ∧ NonWordBreak pre ∧ NonWordHead post

/-- Generalisation of `OccursAsToken` used in the scan induction: when the
occurrence is at position 0 the virtual previous character must not be a
word character. -/
def OccursFrom (prevWord : Bool) (d s : List Char) : Prop :=
  ∃ pre t1 t2 post,
    s = pre ++ t1 :: t2 :: '-' :: (d ++ post)
    ∧ isTT t1 = true ∧ isTT t2 = true
    ∧ d ≠ [] ∧ (∀ c ∈ d, c.isDigit = true)
    ∧ (pre = [] → prevWord = false)
    ∧ NonWordBreak pre ∧ NonWordHead post

/-- An entry of the `found_tasks` dictionary of
`GitHubIntegration.find_all_task_ids_in_repo`. -/
structure TaskRef where
  task_id : String
  pr_number : Option Nat
  title : String
  body : String
  branch : String
  repo : String
deriving DecidableEq, Repr

/-- The task id string `tt-<digits>` built from a digit group
(`f"tt-{match}"` in the code). -/
def ttIdString (d : List Char) : String := "tt-" ++ String.mk d

/-- The dictionary value stored for a discovered task id: identical whether
the id was found in the branch name or in the title of the PR. -/
def mkTaskRef (repo : String) (pr : PRJson) (d : List Char) : TaskRef :=
  { task_id := ttIdString d
  , pr_number := pr.number
  , title := jsonStr pr.title
  , body := jsonStr pr.body
  , branch := jsonStr pr.headRefName
  , repo := repo }

/-- The digit groups contributed by one PR, branch name first then title
(the order the code scans the two fields). -/
def prTaskDigits (pr : PRJson) : List (List Char) :=
  ttFindAll (jsonStr pr.headRefName) ++ ttFindAll (jsonStr pr.title)

/-- One dictionary insertion:
`if task_id not in found_tasks: found_tasks[task_id] = {...}`. -/
def insertTaskRef (repo : String) (pr : PRJson) (a : List TaskRef) (d : List Char) :
    List TaskRef :=
  if ttIdString d ∈ a.map TaskRef.task_id then a
  else a ++ [mkTaskRef repo pr d]

/-- Insert the entries of one PR into the accumulated dictionary, branch
matches first, then title matches. -/
def addTaskRefs (repo : String) (acc : List TaskRef) (pr : PRJson) : List TaskRef :=
  (prTaskDigits pr).foldl (insertTaskRef repo pr) acc

/-- The `found_tasks` dictionary (values in insertion order) after scanning
all PRs. -/
def foundTaskRefs (repo : String) (prs : List PRJson) : List TaskRef :=
  prs.foldl (addTaskRefs repo) []

/-- The sort key used by the final sorted call: every stored id has the
shape `tt-<digits>`, so the integer the code computes by splitting the id
on the dash is the decimal value of the characters after the first three. -/
def taskRefKey (r : TaskRef) : Nat := digitsVal (r.task_id.data.drop 3)

/-- The post-parse core of `GitHubIntegration.find_all_task_ids_in_repo`:
collect ids from branch names and titles (first occurrence wins), then
the final sorted call with the integer-suffix key (the Python sort is stable and ascending). -/
def find_all_core (repo : String) (prs : List PRJson) : List TaskRef :=
  (foundTaskRefs repo prs).mergeSort (fun a b => decide (taskRefKey a ≤ taskRefKey b))

/-- The dictionary built for each matching PR by
`GitHubIntegration.find_prs_with_task_id`. -/
structure PRView where
  number : Option Nat
  title : String
  body : String
  branch : String
deriving DecidableEq, Repr

/-- Case-folded character list of a string. -/
def lowerStr (s : String) : List Char := s.data.map Char.toLower

/-- Model of `re.compile(re.escape(task_id), re.IGNORECASE).search(x)` on ASCII text:
the needle occurs in the haystack up to case. -/
def containsCI (needle hay : String) : Bool :=
  decide (lowerStr needle <:+: lowerStr hay)

/-- The filtering loop of `GitHubIntegration.find_prs_with_task_id`: keep
PRs whose branch name or title contains the task id case-insensitively, in
CLI order, projecting the four reported fields. -/
def matching_prs (task_id : String) (prs : List PRJson) : List PRView :=
  prs.foldl
    (fun acc pr =>
      if containsCI task_id (jsonStr pr.headRefName) || containsCI task_id (jsonStr pr.title) then
        acc ++ [⟨pr.number, jsonStr pr.title, jsonStr pr.body, jsonStr pr.headRefName⟩]
      else acc) []

/-- Environment oracles: `run` models `_run_gh_command` (the `gh` subprocess;
`none` when the executable is missing or exits non-zero), `parsePRList` and
`parsePR` model `json.loads` plus field extraction (`none` on
`json.JSONDecodeError`). -/
structure GhEnv where
  run : List String → Option String
  parsePRList : String → Option (List PRJson)
  parsePR : String → Option PRJson

/-- Model of `GitHubIntegration.is_gh_available`: `gh auth status` succeeded. -/
def is_gh_available (env : GhEnv) : Bool :=
  (env.run ["auth", "status"]).isSome

/-- Model of `GitHubIntegration.get_current_repo`. -/
def get_current_repo (env : GhEnv) : Option String :=
  env.run ["repo", "view", "--json", "nameWithOwner", "-q", ".nameWithOwner"]

/-- Arguments of the `gh pr list` invocation of `find_prs_with_task_id`. -/
def prListArgs (repo : String) : List String :=
  ["pr", "list", "--repo", repo, "--json", "number,title,body,headRefName", "--limit", "100"]

/-- Model of `GitHubIntegration.find_prs_with_task_id`: resolve the repo (current repo
when unspecified; `[]` when that fails), run `gh pr list`, parse, filter. -/
def find_prs_with_task_id (env : GhEnv) (task_id : String) (repo? : Option String) :
    List PRView :=
  match (match repo? with | some r => some r | none => get_current_repo env) with
  | none => []
  | some repo =>
    match env.run (prListArgs repo) with
    | none => []
    | some out =>
      match env.parsePRList out with
      | none => []
      | some prs => matching_prs task_id prs

/-- Model of `GitHubIntegration.get_pr_details`. -/
def get_pr_details (env : GhEnv) (pr_number : Nat) (repo? : Option String) :
    Option PRView :=
  match (match repo? with | some r => some r | none => get_current_repo env) with
  | none => none
  | some repo =>
    match env.run ["pr", "view", toString pr_number, "--repo", repo, "--json",
        "number,title,body,headRefName"] with
    | none => none
    | some out =>
      match env.parsePR out with
      | none => none
      | some pr => some ⟨pr.number, jsonStr pr.title, jsonStr pr.body, jsonStr pr.headRefName⟩

/-- An element of the `GitHubIntegration.find_unlinked_prs` result. -/
structure UnlinkedPR where
  task_code : String
  pr_number : Option Nat
  title : String
  body : String
  branch : String
  repo : String
deriving DecidableEq, Repr

/-- Model of `GitHubIntegration.find_unlinked_prs`: for each candidate code, repeat
the substring search and flatten, tagging each PR with its code and repo. -/
def find_unlinked_prs (env : GhEnv) (existing_task_codes : List String) :
    List UnlinkedPR :=
  match get_current_repo env with
  | none => []
  | some repo =>
    existing_task_codes.flatMap (fun task_code =>
      (find_prs_with_task_id env task_code (some repo)).map (fun pr =>
        ⟨task_code, pr.number, pr.title, pr.body, pr.branch, repo⟩))

/-- Model of `GitHubIntegration.find_all_task_ids_in_repo`: current repo, then
`gh pr list ... --state all`; the Python code only parses when the output is
truthy (a nonempty string), and an unparseable output leaves the dictionary
empty. -/
def find_all_task_ids_in_repo (env : GhEnv) : List TaskRef :=
  match get_current_repo env with
  | none => []
  | some repo =>
    match env.run (prListArgs repo ++ ["--state", "all"]) with
    | none => []
    | some out =>
      if out.isEmpty then []
      else
        match env.parsePRList out with
        | none => []
        | some prs => find_all_core repo prs

/-- The environment in which every `gh` invocation fails and nothing parses:
the CLI is absent or broken. -/
def deadEnv : GhEnv :=
  { run := fun _ => none, parsePRList := fun _ => none, parsePR := fun _ => none }

/-! ## Reconciliation filter (`src/tt/tui/screens/pr_inbox.py`) -/

/-- The unimported-reference filter of `PRInboxScreen.scan_for_prs`:
`existing_codes = {t["code"] for t in tasks}` and keep the repo-wide
references whose `task_id` is not in that set.  The rows come from
`get_all_tasks`, so every status (and duplicate rows of multiply-linked
tasks) is included in the excluded code set. -/
def unimported_ids (tasks : List TaskListRow) (all_ids : List TaskRef) : List TaskRef :=
  all_ids.filter (fun ti => !(tasks.any (fun t => t.code == ti.task_id)))

/-! ## Helper lemmas about `foldl max` -/

theorem le_foldl_max (l : List Nat) (a : Nat) : a ≤ l.foldl max a := by
  induction l generalizing a with
  | nil => exact Nat.le_refl a
  | cons x xs ih => exact le_trans (Nat.le_max_left a x) (ih (max a x))

theorem mem_le_foldl_max {b : Nat} {l : List Nat} (hb : b ∈ l) (a : Nat) :
    b ≤ l.foldl max a := by
  induction l generalizing a with
  | nil => cases hb
  | cons x xs ih =>
    rcases List.mem_cons.mp hb with h | h
    · subst h
      exact le_trans (Nat.le_max_right a b) (le_foldl_max xs (max a b))
    · exact ih h (max a x)

theorem foldl_max_eq_or_mem (l : List Nat) (a : Nat) :
    l.foldl max a = a ∨ l.foldl max a ∈ l := by
  induction l generalizing a with
  | nil => exact Or.inl rfl
  | cons x xs ih =>
    rw [List.foldl_cons]
    rcases ih (max a x) with h | h
    · rcases max_choice a x with hm | hm
      · exact Or.inl (by rw [h, hm])
      · exact Or.inr (by rw [h, hm]; exact List.mem_cons_self x xs)
    · exact Or.inr (List.mem_cons_of_mem x h)

/-! ## C1: what `get_next_task_number` actually returns -/

/-- C1 (amended): `get_next_task_number` returns the maximum internal row id
of the task rows currently present, plus one — `1` when no task exists, and
`t.id + 1` for some present row `t` that dominates all others, otherwise. -/
theorem get_next_task_number_max_rowid (st : DB) :
    (st.tasks = [] → get_next_task_number st = 1)
    ∧ (∀ t ∈ st.tasks, t.id < get_next_task_number st)
    ∧ (st.tasks ≠ [] → ∃ t ∈ st.tasks, get_next_task_number st = t.id + 1) := by
  refine ⟨fun h => by simp [get_next_task_number, h], ?_, ?_⟩
  · intro t ht
    have : t.id ≤ st.tasks.foldl (fun acc t => max acc t.id) 0 := by
      have hmap : t.id ∈ st.tasks.map (fun t => t.id) := List.mem_map_of_mem _ ht
      have := mem_le_foldl_max hmap 0
      rwa [List.foldl_map] at this
    exact Nat.lt_succ_of_le this
  · intro hne
    have := foldl_max_eq_or_mem (st.tasks.map (fun t => t.id)) 0
    rw [List.foldl_map] at this
    rcases this with h | h
    · -- the fold collapsed to 0: every id is ≤ 0; but we still need a witness row
      rcases List.exists_mem_of_ne_nil st.tasks hne with ⟨t, ht⟩
      have hle : t.id ≤ st.tasks.foldl (fun acc t => max acc t.id) 0 := by
        have hmap : t.id ∈ st.tasks.map (fun t => t.id) := List.mem_map_of_mem _ ht
        have := mem_le_foldl_max hmap 0
        rwa [List.foldl_map] at this
      have hz : t.id = 0 := Nat.le_antisymm (h ▸ hle) (Nat.zero_le _)
      refine ⟨t, ht, ?_⟩
      simp [get_next_task_number, h, hz]
    · rw [List.mem_map] at h
      rcases h with ⟨t, ht, hid⟩
      exact ⟨t, ht, by simp [get_next_task_number, ← hid]⟩

/-- Witness for the amended C1 statement at a concrete one-task store. -/
theorem get_next_task_number_max_rowid_witness :
    (DB.mk [⟨4, "tt-4", "open", ""⟩] [] 4 0).tasks ≠ [] ∧
    ∃ t ∈ (DB.mk [⟨4, "tt-4", "open", ""⟩] [] 4 0).tasks,
      get_next_task_number (DB.mk [⟨4, "tt-4", "open", ""⟩] [] 4 0) = t.id + 1 := by
  refine ⟨by decide, (get_next_task_number_max_rowid (DB.mk [⟨4, "tt-4", "open", ""⟩] [] 4 0)).2.2 (by decide)⟩

/-- C1 (counterexample to the claim as stated): after creating `tt-1`,
deleting it and creating again, AUTOINCREMENT assigns row id 2 to the new
`tt-1` row, so `get_next_task_number` returns `3` while the spec formula
`max(existing numeric suffixes) + 1` gives `2`. -/
theorem get_next_task_number_ne_spec_suffix :
    (runOps [Op.createAuto, Op.deleteTask "tt-1", Op.createAuto]).1.tasks
      = [⟨2, "tt-1", "open", ""⟩]
    ∧ get_next_task_number (runOps [Op.createAuto, Op.deleteTask "tt-1", Op.createAuto]).1 = 3
    ∧ spec_next_task_number (runOps [Op.createAuto, Op.deleteTask "tt-1", Op.createAuto]).1 = 2 := by
  decide

/-! ## C2: task codes can be reassigned after deleting the max row -/

/-- C2: the claim fails on the code.  Creating five tasks, deleting `tt-5`
(the task with the maximum row id) and creating again makes
`SELECT MAX(id)` rewind to 4, so the generator hands out `tt-5` a second
time: the log of assigned codes contains `tt-5` twice. -/
theorem create_reuses_code_after_deleting_max :
    (runOps [Op.createAuto, Op.createAuto, Op.createAuto, Op.createAuto, Op.createAuto,
      Op.deleteTask "tt-5", Op.createAuto]).2
      = ["tt-1", "tt-2", "tt-3", "tt-4", "tt-5", "tt-5"]
    ∧ ¬ (runOps [Op.createAuto, Op.createAuto, Op.createAuto, Op.createAuto, Op.createAuto,
      Op.deleteTask "tt-5", Op.createAuto]).2.Nodup := by
  decide

/-! ## C3: linking to a nonexistent code silently writes an orphan row -/

/-- C3: the claim fails on the code.  On the empty store, `create_pr` with
the nonexistent code `tt-1` raises no error: it inserts a PR row referencing
`tt-1` (an orphan, since the `tasks` table stays empty), updates no task row,
and returns the new record. -/
theorem create_pr_unknown_code_writes_orphan :
    (create_pr DB.empty "tt-1" "owner/repo" 1 "Title" none "").2.prs
      = [⟨1, "tt-1", "owner/repo", 1, "Title", none, ""⟩]
    ∧ (create_pr DB.empty "tt-1" "owner/repo" 1 "Title" none "").2.tasks = []
    ∧ (create_pr DB.empty "tt-1" "owner/repo" 1 "Title" none "").1
      = ⟨1, "tt-1", "owner/repo", 1, "Title", none, ""⟩ := by
  decide

/-! ## C4: status/link invariant over reachable states -/

theorem linkedHasLink_empty : LinkedHasLink DB.empty := by
  intro t ht
  simp [DB.empty] at ht

theorem linkedHasLink_create_task {st : DB} {code created_at : String}
    {r : TaskRow} {st1 : DB}
    (hok : create_task st code created_at = Except.ok (r, st1))
    (h : LinkedHasLink st) : LinkedHasLink st1 := by
  unfold create_task at hok
  cases hany : st.tasks.any (fun t => t.code == code) with
  | true => rw [hany] at hok; simp at hok
  | false =>
    rw [hany] at hok
    simp at hok
    obtain ⟨hr, hst⟩ := hok
    subst hst
    intro t ht
    simp at ht
    rcases ht with ht | ht
    · exact h t ht
    · subst ht
      exact ⟨fun hlk => by simp at hlk, Or.inl rfl⟩

theorem linkedHasLink_create_task_with_id {st : DB} {ca : String}
    {v : (String × TaskRow) × DB}
    (hok : create_task_with_id st ca = Except.ok v)
    (h : LinkedHasLink st) : LinkedHasLink v.2 := by
  cases hc : create_task st (generate_next_id st) ca with
  | error e =>
    simp only [create_task_with_id, hc] at hok
    exact absurd hok (by simp)
  | ok w =>
    obtain ⟨w1, w2⟩ := w
    simp only [create_task_with_id, hc] at hok
    have h2 := linkedHasLink_create_task hc h
    injection hok with hok2
    subst hok2
    exact h2

theorem linkedHasLink_create_pr (st : DB) (task_code repo : String) (n : Nat)
    (title : String) (body : Option String) (ca : String)
    (h : LinkedHasLink st) :
    LinkedHasLink (create_pr st task_code repo n title body ca).2 := by
  intro t ht
  simp [create_pr] at ht
  obtain ⟨t0, ht0, heq⟩ := ht
  by_cases hc : t0.code = task_code
  · have hteq : t = { t0 with status := "linked" } := by
      rw [← heq]; simp [hc]
    subst hteq
    refine ⟨fun _ => ?_, Or.inr rfl⟩
    refine ⟨⟨st.pr_seq + 1, task_code, repo, n, title, body, ca⟩, ?_, ?_⟩
    · simp [create_pr]
    · simp [hc]
  · have hteq : t = t0 := by rw [← heq]; simp [hc]
    rw [hteq]
    rcases h t0 ht0 with ⟨h1, h2⟩
    refine ⟨fun hlk => ?_, h2⟩
    obtain ⟨p, hp, hpc⟩ := h1 hlk
    exact ⟨p, by simp [create_pr]; exact Or.inl hp, hpc⟩

theorem linkedHasLink_delete (st : DB) (code : String) (h : LinkedHasLink st) :
    LinkedHasLink (delete_task st code).2 := by
  cases hf : st.tasks.find? (fun t => t.code == code) with
  | none =>
    have heq : delete_task st code = (false, st) := by
      unfold delete_task
      rw [hf]
    rw [heq]
    exact h
  | some t0 =>
    have heq : delete_task st code =
        (true, { st with
          prs := st.prs.filter (fun p => !(p.task_code == code))
          tasks := st.tasks.filter (fun t => !(t.code == code)) }) := by
      unfold delete_task
      rw [hf]
    rw [heq]
    intro t ht
    simp at ht
    obtain ⟨ht1, ht2⟩ := ht
    rcases h t ht1 with ⟨h1, h2⟩
    refine ⟨fun hlk => ?_, h2⟩
    obtain ⟨p, hp, hpc⟩ := h1 hlk
    refine ⟨p, ?_, hpc⟩
    simp
    refine ⟨hp, ?_⟩
    rw [hpc]
    exact ht2

theorem linkedHasLink_step (st : DB) (op : Op) (h : LinkedHasLink st) :
    LinkedHasLink (stepLog st op).1 := by
  cases op with
  | createAuto =>
    simp only [stepLog]
    cases hk : create_task_with_id st "" with
    | error e => exact h
    | ok v =>
      obtain ⟨⟨tid, row⟩, st1⟩ := v
      exact linkedHasLink_create_task_with_id hk h
  | createTask code =>
    simp only [stepLog]
    cases hk : create_task st code "" with
    | error e => exact h
    | ok v =>
      obtain ⟨row, st1⟩ := v
      exact linkedHasLink_create_task hk h
  | createPR task_code repo n title body =>
    exact linkedHasLink_create_pr st task_code repo n title body "" h
  | deleteTask code =>
    exact linkedHasLink_delete st code h

theorem linkedHasLink_runAux (ops : List Op) :
    ∀ acc : DB × List String, LinkedHasLink acc.1 →
      LinkedHasLink (ops.foldl (fun acc op =>
        let r := stepLog acc.1 op
        (r.1, acc.2 ++ r.2)) acc).1 := by
  induction ops with
  | nil => intro acc h; exact h
  | cons op ops ih =>
    intro acc h
    rw [List.foldl_cons]
    exact ih _ (linkedHasLink_step acc.1 op h)

/-- C4 (amended): in every store state reachable from the empty store by the
public operations, a task whose status is `linked` has at least one
PullRequestLink row referencing its code, and a task referenced by no link
row has status `open`.  (The full if-and-only-if fails: a link created
before its task exists leaves the later-created task `open` while a link
row references it — see the counterexample.) -/
theorem reachable_linked_iff_has_link (ops : List Op) :
    ∀ t ∈ (runOps ops).1.tasks,
      (t.status = "linked" → ∃ p ∈ (runOps ops).1.prs, p.task_code = t.code)
      ∧ ((∀ p ∈ (runOps ops).1.prs, p.task_code ≠ t.code) → t.status = "open") := by
  have h : LinkedHasLink (runOps ops).1 := by
    unfold runOps
    exact linkedHasLink_runAux ops (DB.empty, []) linkedHasLink_empty
  intro t ht
  rcases h t ht with ⟨h1, h2⟩
  refine ⟨h1, fun hno => ?_⟩
  rcases h2 with h2 | h2
  · exact h2
  · exfalso
    obtain ⟨p, hp, hpc⟩ := h1 h2
    exact hno p hp hpc

/-- C4 (counterexample to the claim as stated): linking PR data to code
`tt-1` before any task exists and then creating task `tt-1` reaches a state
in which task `tt-1` has status `open` although a PullRequestLink row
references its code — the claimed if-and-only-if is violated. -/
theorem open_task_with_link_reachable :
    ∃ t ∈ (runOps [Op.createPR "tt-1" "o/r" 1 "T" none, Op.createTask "tt-1"]).1.tasks,
      t.status ≠ "linked"
      ∧ ∃ p ∈ (runOps [Op.createPR "tt-1" "o/r" 1 "T" none, Op.createTask "tt-1"]).1.prs,
          p.task_code = t.code := by
  decide

/-! ## C8: delete_task -/

/-- C8: `delete_task` returns `true` exactly when a task with the code
exists; in that case it removes the task row and every PR row for the code
(so a subsequent `get_prs_for_task` on the same code returns `[]` and no
task with the code remains); otherwise it returns `false` and leaves the
store unchanged. -/
theorem delete_task_spec (st : DB) (code : String) :
    ((delete_task st code).1 = true ↔ ∃ t ∈ st.tasks, t.code = code)
    ∧ (if (delete_task st code).1 = true then
        (delete_task st code).2.tasks = st.tasks.filter (fun t => !(t.code == code))
        ∧ (delete_task st code).2.prs = st.prs.filter (fun p => !(p.task_code == code))
        ∧ get_prs_for_task (delete_task st code).2 code = []
        ∧ ∀ t ∈ (delete_task st code).2.tasks, t.code ≠ code
      else (delete_task st code).2 = st) := by
  cases hf : st.tasks.find? (fun t => t.code == code) with
  | none =>
    have heq : delete_task st code = (false, st) := by
      unfold delete_task
      rw [hf]
    have hnone := List.find?_eq_none.mp hf
    rw [heq]
    constructor
    · simp
      intro x hx hcx
      have := hnone x hx
      simp at this
      exact this hcx
    · split
      · next htrue => exact absurd htrue (by simp)
      · rfl
  | some t0 =>
    have heq : delete_task st code =
        (true, { st with
          prs := st.prs.filter (fun p => !(p.task_code == code))
          tasks := st.tasks.filter (fun t => !(t.code == code)) }) := by
      unfold delete_task
      rw [hf]
    have hmem := List.mem_of_find?_eq_some hf
    have hcode : t0.code = code := by
      have := List.find?_some hf
      simpa using this
    rw [heq]
    constructor
    · simp
      exact ⟨t0, hmem, hcode⟩
    · split
      · refine ⟨rfl, rfl, ?_, ?_⟩
        · unfold get_prs_for_task
          simp [List.filter_filter]
        · intro t ht
          have := (List.mem_filter.mp ht).2
          simpa using this
      · next hfalse => exact absurd rfl hfalse

/-! ## C7: the unimported-reference filter -/

/-- C7: the unimported set contains exactly the repo-wide references whose
task id equals no local task code, and the filter is insensitive to any
field other than the code (in particular to the status): local tasks of
every status are excluded. -/
theorem unimported_ids_spec (tasks : List TaskListRow) (all_ids : List TaskRef) :
    (∀ r, r ∈ unimported_ids tasks all_ids ↔
      r ∈ all_ids ∧ ∀ t ∈ tasks, t.code ≠ r.task_id)
    ∧ ∀ f : TaskListRow → TaskListRow, (∀ t, (f t).code = t.code) →
        unimported_ids (tasks.map f) all_ids = unimported_ids tasks all_ids := by
  constructor
  · intro r
    unfold unimported_ids
    rw [List.mem_filter]
    simp [List.any_eq_true]
  · intro f hf
    unfold unimported_ids
    apply List.filter_congr
    intro ti _
    have hany : ((tasks.map f).any (fun t => t.code == ti.task_id))
        = tasks.any (fun t => t.code == ti.task_id) := by
      induction tasks with
      | nil => rfl
      | cons t ts ih => simp [hf t, ih]
    rw [hany]

/-- Witness for C7 at concrete inputs: a linked local task excludes its
reference, and the status-irrelevance instance holds for the function that
blanks the status. -/
theorem unimported_ids_spec_witness :
    (∀ r, r ∈ unimported_ids [⟨1, "tt-1", "linked", "", some 5, some "A", none⟩]
        [⟨"tt-1", some 5, "A", "", "b", "o/r"⟩, ⟨"tt-2", some 6, "B", "", "c", "o/r"⟩] ↔
      r ∈ [⟨"tt-1", some 5, "A", "", "b", "o/r"⟩, ⟨"tt-2", some 6, "B", "", "c", "o/r"⟩]
        ∧ ∀ t ∈ [(⟨1, "tt-1", "linked", "", some 5, some "A", none⟩ : TaskListRow)], t.code ≠ r.task_id) := by
  exact (unimported_ids_spec [⟨1, "tt-1", "linked", "", some 5, some "A", none⟩]
    [⟨"tt-1", some 5, "A", "", "b", "o/r"⟩, ⟨"tt-2", some 6, "B", "", "c", "o/r"⟩]).1

/-! ## C9: find_prs_with_task_id filtering -/

theorem foldl_append_filter_map {α β : Type} (p : α → Bool) (f : α → β) :
    ∀ (l : List α) (init : List β),
      l.foldl (fun acc x => if p x then acc ++ [f x] else acc) init
        = init ++ (l.filter p).map f := by
  intro l
  induction l with
  | nil => intro init; simp
  | cons x xs ih =>
    intro init
    rw [List.foldl_cons]
    cases hp : p x with
    | false => simp only [hp, Bool.false_eq_true, if_false, ih, List.filter_cons, hp]
    | true =>
      simp only [hp, if_true, ih, List.filter_cons]
      simp

/-- C9: the PRs reported for a task id are exactly those whose branch name
or title contains the id as a case-insensitive substring, in the order the
CLI listed them, each projected to its number, title, body and branch. -/
theorem find_prs_with_task_id_spec (task_id : String) (prs : List PRJson) :
    matching_prs task_id prs
      = (prs.filter (fun pr =>
          containsCI task_id (jsonStr pr.headRefName)
            || containsCI task_id (jsonStr pr.title))).map
          (fun pr => ⟨pr.number, jsonStr pr.title, jsonStr pr.body, jsonStr pr.headRefName⟩)
    ∧ ∀ v, v ∈ matching_prs task_id prs ↔
        ∃ pr ∈ prs,
          ((∃ a b, a ++ lowerStr task_id ++ b = lowerStr (jsonStr pr.headRefName))
            ∨ (∃ a b, a ++ lowerStr task_id ++ b = lowerStr (jsonStr pr.title)))
          ∧ v = ⟨pr.number, jsonStr pr.title, jsonStr pr.body, jsonStr pr.headRefName⟩ := by
  have heq : matching_prs task_id prs
      = (prs.filter (fun pr =>
          containsCI task_id (jsonStr pr.headRefName)
            || containsCI task_id (jsonStr pr.title))).map
          (fun pr => ⟨pr.number, jsonStr pr.title, jsonStr pr.body, jsonStr pr.headRefName⟩) := by
    unfold matching_prs
    rw [foldl_append_filter_map]
    simp
  refine ⟨heq, fun v => ?_⟩
  rw [heq]
  simp only [List.mem_map, List.mem_filter]
  constructor
  · rintro ⟨pr, ⟨hpr, hcond⟩, hv⟩
    refine ⟨pr, hpr, ?_, hv.symm⟩
    rcases Bool.or_eq_true_iff.mp hcond with hc | hc
    · left
      have := of_decide_eq_true hc
      obtain ⟨a, b, hab⟩ := this
      exact ⟨a, b, hab⟩
    · right
      have := of_decide_eq_true hc
      obtain ⟨a, b, hab⟩ := this
      exact ⟨a, b, hab⟩
  · rintro ⟨pr, hpr, hsub, hv⟩
    refine ⟨pr, ⟨hpr, ?_⟩, hv.symm⟩
    apply Bool.or_eq_true_iff.mpr
    rcases hsub with ⟨a, b, hab⟩ | ⟨a, b, hab⟩
    · exact Or.inl (decide_eq_true ⟨a, b, hab⟩)
    · exact Or.inr (decide_eq_true ⟨a, b, hab⟩)

/-! ## C10: shape of the get_all_tasks join -/

theorem taskJoinBlock_mem {st : DB} {t : TaskRow} :
    ∀ r ∈ taskJoinBlock st t, r.code = t.code ∧ r.id = t.id := by
  intro r hr
  simp only [taskJoinBlock] at hr
  split at hr
  · simp at hr
    rw [hr]
    exact ⟨rfl, rfl⟩
  · rw [List.mem_map] at hr
    obtain ⟨p, _, hp⟩ := hr
    rw [← hp]
    exact ⟨rfl, rfl⟩

theorem filter_flatMap_single (g : TaskRow → List TaskListRow) (t : TaskRow) :
    ∀ l : List TaskRow, (l.map TaskRow.code).Nodup → t ∈ l →
      (∀ u ∈ l, ∀ r ∈ g u, r.code = u.code) →
      (l.flatMap g).filter (fun r => r.code == t.code) = g t := by
  intro l
  induction l with
  | nil => intro _ ht; cases ht
  | cons x xs ih =>
    intro hnd ht hg
    rw [List.flatMap_cons, List.filter_append]
    rw [List.map_cons, List.nodup_cons] at hnd
    obtain ⟨hx, hnd2⟩ := hnd
    rcases List.mem_cons.mp ht with rfl | htx
    · have h1 : (g t).filter (fun r => r.code == t.code) = g t := by
        apply List.filter_eq_self.mpr
        intro r hr
        simp [hg t (List.mem_cons_self t xs) r hr]
      have h2 : (xs.flatMap g).filter (fun r => r.code == t.code) = [] := by
        apply List.filter_eq_nil_iff.mpr
        intro r hr
        rw [List.mem_flatMap] at hr
        obtain ⟨u, hu, hru⟩ := hr
        have hcode := hg u (List.mem_cons_of_mem _ hu) r hru
        have hne : u.code ≠ t.code := by
          intro hequ
          exact hx (by rw [← hequ]; exact List.mem_map_of_mem _ hu)
        simp [hcode, hne]
      rw [h1, h2, List.append_nil]
    · have h1 : (g x).filter (fun r => r.code == t.code) = [] := by
        apply List.filter_eq_nil_iff.mpr
        intro r hr
        have hcode := hg x (List.mem_cons_self x xs) r hr
        have hne : x.code ≠ t.code := by
          intro hequ
          exact hx (by rw [hequ]; exact List.mem_map_of_mem _ htx)
        simp [hcode, hne]
      rw [h1]
      rw [ih hnd2 htx (fun u hu r hr => hg u (List.mem_cons_of_mem _ hu) r hr)]
      simp

theorem pairwise_flatMap_ge (g : TaskRow → List TaskListRow) :
    ∀ l : List TaskRow, List.Pairwise (fun a b => b.id ≤ a.id) l →
      (∀ u ∈ l, ∀ r ∈ g u, r.id = u.id) →
      List.Pairwise (fun a b : TaskListRow => b.id ≤ a.id) (l.flatMap g) := by
  intro l
  induction l with
  | nil => intro _ _; simp
  | cons x xs ih =>
    intro hp hg
    rw [List.flatMap_cons]
    rw [List.pairwise_cons] at hp
    obtain ⟨hx, hp2⟩ := hp
    apply List.pairwise_append.mpr
    refine ⟨?_, ?_, ?_⟩
    · apply List.pairwise_of_forall_mem_list
      intro a ha b hb
      rw [hg x (List.mem_cons_self x xs) a ha, hg x (List.mem_cons_self x xs) b hb]
    · exact ih hp2 (fun u hu => hg u (List.mem_cons_of_mem _ hu))
    · intro a ha b hb
      rw [List.mem_flatMap] at hb
      obtain ⟨u, hu, hbu⟩ := hb
      rw [hg x (List.mem_cons_self x xs) a ha, hg u (List.mem_cons_of_mem _ hu) b hbu]
      exact hx u hu

theorem sorted_tasks_pairwise (st : DB) :
    List.Pairwise (fun a b : TaskRow => b.id ≤ a.id)
      (st.tasks.mergeSort (fun a b => decide (b.id ≤ a.id))) := by
  have h := @List.sorted_mergeSort TaskRow (fun a b : TaskRow => decide (b.id ≤ a.id))
    (fun a b c hab hbc => by
      simp only [decide_eq_true_eq] at hab hbc ⊢
      exact le_trans hbc hab)
    (fun a b => by
      rcases Nat.le_total b.id a.id with hle | hle
      · simp [hle]
      · simp [hle])
    st.tasks
  exact h.imp (fun hab => by simpa using hab)

/-- C10: for every store whose task codes are unique (the `UNIQUE`
constraint on `tasks.code`), the rows `get_all_tasks` returns for a task
are one per linked PR — a task with `k ≥ 1` links appears `k` times, one
row per link — while a task with no links contributes exactly one row with
NULL PR fields; every row belongs to some task, and the rows are ordered by
internal task id descending. -/
theorem get_all_tasks_join (st : DB) (h : (st.tasks.map TaskRow.code).Nodup) :
    (∀ t ∈ st.tasks,
      (get_all_tasks st).filter (fun r => r.code == t.code)
        = (if (get_prs_for_task st t.code).isEmpty then
            [⟨t.id, t.code, t.status, t.created_at, none, none, none⟩]
          else
            (get_prs_for_task st t.code).map
              (fun p => ⟨t.id, t.code, t.status, t.created_at, some p.pr_number, some p.title, p.body⟩)))
    ∧ (∀ t ∈ st.tasks,
        ((get_all_tasks st).filter (fun r => r.code == t.code)).length
          = max 1 (get_prs_for_task st t.code).length)
    ∧ (∀ r ∈ get_all_tasks st, ∃ t ∈ st.tasks, r.code = t.code)
    ∧ ((get_all_tasks st).map TaskListRow.id).Sorted (· ≥ ·) := by
  have hperm := List.mergeSort_perm st.tasks (fun a b => decide (b.id ≤ a.id))
  have hndL : ((st.tasks.mergeSort (fun a b => decide (b.id ≤ a.id))).map TaskRow.code).Nodup :=
    ((hperm.map TaskRow.code).nodup_iff).mpr h
  have hfilter : ∀ t ∈ st.tasks,
      (get_all_tasks st).filter (fun r => r.code == t.code) = taskJoinBlock st t := by
    intro t ht
    exact filter_flatMap_single (taskJoinBlock st) t _ hndL (hperm.mem_iff.mpr ht)
      (fun u _ r hr => (taskJoinBlock_mem r hr).1)
  have hblock : ∀ t, taskJoinBlock st t
      = (if (get_prs_for_task st t.code).isEmpty then
          [⟨t.id, t.code, t.status, t.created_at, none, none, none⟩]
        else
          (get_prs_for_task st t.code).map
            (fun p => ⟨t.id, t.code, t.status, t.created_at, some p.pr_number, some p.title, p.body⟩)) := by
    intro t
    rfl
  refine ⟨?_, ?_, ?_, ?_⟩
  · intro t ht
    rw [hfilter t ht, hblock t]
  · intro t ht
    rw [hfilter t ht, hblock t]
    by_cases hps : (get_prs_for_task st t.code).isEmpty
    · rw [if_pos hps]
      have : (get_prs_for_task st t.code).length = 0 := by
        rw [List.isEmpty_iff] at hps
        rw [hps]
        rfl
      simp [this]
    · rw [if_neg hps]
      rw [List.length_map]
      have hpos : 1 ≤ (get_prs_for_task st t.code).length := by
        rcases hq : get_prs_for_task st t.code with _ | ⟨p, ps⟩
        · rw [hq] at hps
          simp at hps
        · simp
      exact (Nat.max_eq_right hpos).symm
  · intro r hr
    unfold get_all_tasks at hr
    rw [List.mem_flatMap] at hr
    obtain ⟨u, hu, hru⟩ := hr
    exact ⟨u, hperm.mem_iff.mp hu, (taskJoinBlock_mem r hru).1⟩
  · have hp := pairwise_flatMap_ge (taskJoinBlock st) _ (sorted_tasks_pairwise st)
      (fun u _ r hr => (taskJoinBlock_mem r hr).2)
    unfold get_all_tasks
    rw [List.Sorted, List.pairwise_map]
    exact hp.imp (fun hab => hab)

/-- Witness for C10 at a concrete store: two tasks, the first carrying two
PR links; the hypothesis (unique codes) holds and the join rows are sorted
by task id descending. -/
theorem get_all_tasks_join_witness :
    (exDB.tasks.map TaskRow.code).Nodup
    ∧ ((get_all_tasks exDB).map TaskListRow.id).Sorted (· ≥ ·) :=
  ⟨by decide, (get_all_tasks_join exDB (by decide)).2.2.2⟩

/-! ## C6: the remote scanner degrades on failure -/

/-- C6: every Remote Scanner operation is total on failure inputs.  When
every `gh` invocation fails (the CLI is absent, exits non-zero — modelled by
the `run` oracle returning `none`), the six operations return `false`,
`none` or `[]`; when the CLI responds but its output is unparseable JSON
(both parse oracles return `none` on every string), the four JSON-consuming
operations likewise return `[]` or `none`.  No exception escapes: the
functions are total. -/
theorem remote_scanner_degrades (env : GhEnv) :
    ((∀ args, env.run args = none) →
      is_gh_available env = false
      ∧ get_current_repo env = none
      ∧ (∀ task_id repo?, find_prs_with_task_id env task_id repo? = [])
      ∧ (∀ n repo?, get_pr_details env n repo? = none)
      ∧ (∀ codes, find_unlinked_prs env codes = [])
      ∧ find_all_task_ids_in_repo env = [])
    ∧ ((∀ s, env.parsePRList s = none) → (∀ s, env.parsePR s = none) →
      (∀ task_id repo?, find_prs_with_task_id env task_id repo? = [])
      ∧ (∀ n repo?, get_pr_details env n repo? = none)
      ∧ (∀ codes, find_unlinked_prs env codes = [])
      ∧ find_all_task_ids_in_repo env = []) := by
  constructor
  · intro hrun
    have hrepo : get_current_repo env = none := hrun _
    have hfind : ∀ task_id repo?, find_prs_with_task_id env task_id repo? = [] := by
      intro task_id repo?
      unfold find_prs_with_task_id
      split
      · rfl
      · split
        · rfl
        · next out hout =>
            rw [hrun] at hout
            cases hout
    refine ⟨?_, hrepo, hfind, ?_, ?_, ?_⟩
    · unfold is_gh_available
      rw [hrun]
      rfl
    · intro n repo?
      unfold get_pr_details
      split
      · rfl
      · split
        · rfl
        · next out hout =>
            rw [hrun] at hout
            cases hout
    · intro codes
      unfold find_unlinked_prs
      rw [hrepo]
    · unfold find_all_task_ids_in_repo
      rw [hrepo]
  · intro hpl hpp
    have hfind : ∀ task_id repo?, find_prs_with_task_id env task_id repo? = [] := by
      intro task_id repo?
      unfold find_prs_with_task_id
      split
      · rfl
      · split
        · rfl
        · split
          · rfl
          · next prs hprs =>
              rw [hpl] at hprs
              cases hprs
    refine ⟨hfind, ?_, ?_, ?_⟩
    · intro n repo?
      unfold get_pr_details
      split
      · rfl
      · split
        · rfl
        · split
          · rfl
          · next pr hpr =>
              rw [hpp] at hpr
              cases hpr
    · intro codes
      unfold find_unlinked_prs
      split
      · rfl
      · simp [hfind]
    · unfold find_all_task_ids_in_repo
      split
      · rfl
      · split
        · rfl
        · split
          · rfl
          · split
            · rfl
            · next prs hprs =>
                rw [hpl] at hprs
                cases hprs

/-- Witness for C6: in the environment where every invocation fails, all six
operations evaluate to their degraded results. -/
theorem remote_scanner_degrades_witness :
    is_gh_available deadEnv = false
    ∧ get_current_repo deadEnv = none
    ∧ find_prs_with_task_id deadEnv "tt-1" none = []
    ∧ get_pr_details deadEnv 1 none = none
    ∧ find_unlinked_prs deadEnv ["tt-1"] = []
    ∧ find_all_task_ids_in_repo deadEnv = [] := by
  have h := (remote_scanner_degrades deadEnv).1 (fun args => rfl)
  exact ⟨h.1, h.2.1, h.2.2.1 "tt-1" none, h.2.2.2.1 1 none, h.2.2.2.2.1 ["tt-1"], h.2.2.2.2.2⟩

/-! ## C5: the whole-word scan — character facts and the head matcher -/

theorem isWordChar_of_isTT {c : Char} (h : isTT c = true) : isWordChar c = true := by
  simp [isTT] at h
  rcases h with rfl | rfl <;> decide

theorem not_isDigit_of_isTT {c : Char} (h : isTT c = true) : c.isDigit = false := by
  simp [isTT] at h
  rcases h with rfl | rfl <;> decide

theorem isWordChar_of_isDigit {c : Char} (h : c.isDigit = true) : isWordChar c = true := by
  simp [isWordChar, h]

theorem takeWhile_dropWhile_of_append (p : Char → Bool) :
    ∀ (d post : List Char), (∀ c ∈ d, p c = true) →
      (∀ c, post.head? = some c → p c = false) →
      (d ++ post).takeWhile p = d ∧ (d ++ post).dropWhile p = post := by
  intro d
  induction d with
  | nil =>
    intro post _ hpost
    cases post with
    | nil => exact ⟨rfl, rfl⟩
    | cons c cs =>
      have hc := hpost c rfl
      rw [List.nil_append]
      constructor
      · rw [List.takeWhile_cons, hc]
        simp
      · rw [List.dropWhile_cons, hc]
        simp
  | cons x xs ih =>
    intro post hd hpost
    have hx : p x = true := hd x (List.mem_cons_self x xs)
    have hih := ih post (fun c hc => hd c (List.mem_cons_of_mem _ hc)) hpost
    rw [List.cons_append]
    constructor
    · rw [List.takeWhile_cons, hx]
      simp [hih.1]
    · rw [List.dropWhile_cons, hx]
      simp [hih.2]

theorem ttMatch?_sound {s d rest : List Char} (h : ttMatch? s = some (d, rest)) :
    (∃ t1 t2, s = t1 :: t2 :: '-' :: (d ++ rest) ∧ isTT t1 = true ∧ isTT t2 = true)
    ∧ d ≠ [] ∧ (∀ c ∈ d, c.isDigit = true) ∧ NonWordHead rest := by
  cases s with
  | nil => simp [ttMatch?] at h
  | cons t1 s1 =>
    cases s1 with
    | nil => simp [ttMatch?] at h
    | cons t2 s2 =>
      cases s2 with
      | nil => simp [ttMatch?] at h
      | cons h3 rest0 =>
        simp only [ttMatch?] at h
        split at h
        · next hc =>
          obtain ⟨hc12, hc3⟩ := Bool.and_eq_true_iff.mp hc
          obtain ⟨ht1, ht2⟩ := Bool.and_eq_true_iff.mp hc12
          have hc3eq : h3 = '-' := by simpa using hc3
          subst hc3eq
          split at h
          · cases h
          · next hne =>
            have hdrest : d = rest0.takeWhile Char.isDigit ∧ rest = rest0.dropWhile Char.isDigit := by
              split at h
              · next hrest2 =>
                injection h with hpair
                injection hpair with h1 h2
                exact ⟨h1.symm, h2.symm⟩
              · next c cs hrest2 =>
                split at h
                · cases h
                · injection h with hpair
                  injection hpair with h1 h2
                  exact ⟨h1.symm, h2.symm⟩
            obtain ⟨hd, hrest⟩ := hdrest
            refine ⟨⟨t1, t2, ?_, ht1, ht2⟩, ?_, ?_, ?_⟩
            · rw [hd, hrest, List.takeWhile_append_dropWhile]
            · intro habs
              rw [habs] at hd
              rw [← hd] at hne
              simp at hne
            · intro c hc
              rw [hd] at hc
              exact List.mem_takeWhile_imp hc
            · -- head of the remainder is not a word character
              intro c hc
              rw [hrest] at hc
              -- the matcher accepted: either rest2 was empty (contradiction with hc)
              -- or its head is a non-word character
              revert h
              split
              · next hrest2 =>
                intro _
                rw [hrest2] at hc
                cases hc
              · next c2 cs2 hrest2 =>
                intro h
                split at h
                · cases h
                · next hw =>
                  rw [hrest2] at hc
                  injection hc with hceq
                  rw [← hceq]
                  simpa using hw
        · cases h

theorem ttMatch?_complete {t1 t2 : Char} {d post : List Char}
    (h1 : isTT t1 = true) (h2 : isTT t2 = true) (hd : d ≠ [])
    (hdig : ∀ c ∈ d, c.isDigit = true) (hpost : NonWordHead post) :
    ttMatch? (t1 :: t2 :: '-' :: (d ++ post)) = some (d, post) := by
  have hpost2 : ∀ c, post.head? = some c → Char.isDigit c = false := by
    intro c hc
    have hw := hpost c hc
    cases hdigc : c.isDigit
    · rfl
    · rw [isWordChar_of_isDigit hdigc] at hw
      cases hw
  obtain ⟨htake, hdrop⟩ := takeWhile_dropWhile_of_append Char.isDigit d post hdig hpost2
  have hdne : d.isEmpty = false := by
    cases d with
    | nil => exact absurd rfl hd
    | cons x xs => rfl
  cases post with
  | nil =>
    have htake2 : d.takeWhile Char.isDigit = d := by simpa using htake
    have hdrop2 : d.dropWhile Char.isDigit = [] := by simpa using hdrop
    simp [ttMatch?, h1, h2, htake2, hdrop2, hdne]
  | cons c cs =>
    have hw : isWordChar c = false := hpost c rfl
    simp [ttMatch?, h1, h2, htake, hdrop, hdne, hw]

/-! ## C5: shifting occurrences across the head character -/

theorem occursFrom_cons_of_tail {c : Char} {cs : List Char} {prevWord : Bool}
    {d : List Char} (h : OccursFrom (isWordChar c) d cs) :
    OccursFrom prevWord d (c :: cs) := by
  obtain ⟨pre, t1, t2, post, hs, h1, h2, hd, hdig, hpre0, hbreak, hhead⟩ := h
  refine ⟨c :: pre, t1, t2, post, ?_, h1, h2, hd, hdig, ?_, ?_, hhead⟩
  · rw [List.cons_append, hs]
  · intro habs
    cases habs
  · intro x hx
    cases pre with
    | nil =>
      simp at hx
      rw [← hx]
      exact hpre0 rfl
    | cons y ys =>
      rw [List.getLast?_cons_cons] at hx
      exact hbreak x hx

theorem occursFrom_cons_elim {c : Char} {cs : List Char} {prevWord : Bool}
    {d : List Char} (h : OccursFrom prevWord d (c :: cs)) :
    (prevWord = false ∧ ∃ t2 post, cs = t2 :: '-' :: (d ++ post)
        ∧ isTT c = true ∧ isTT t2 = true ∧ d ≠ []
        ∧ (∀ x ∈ d, x.isDigit = true) ∧ NonWordHead post)
    ∨ OccursFrom (isWordChar c) d cs := by
  obtain ⟨pre, t1, t2, post, hs, h1, h2, hd, hdig, hpre0, hbreak, hhead⟩ := h
  cases pre with
  | nil =>
    left
    rw [List.nil_append] at hs
    injection hs with hc hrest
    refine ⟨hpre0 rfl, t2, post, hrest, ?_, h2, hd, hdig, hhead⟩
    rw [hc]
    exact h1
  | cons y ys =>
    right
    rw [List.cons_append] at hs
    injection hs with hc hrest
    refine ⟨ys, t1, t2, post, hrest, h1, h2, hd, hdig, ?_, ?_, hhead⟩
    · intro hys
      subst hys
      have hy := hbreak y (by simp)
      rw [hc]
      exact hy
    · intro x hx
      apply hbreak x
      cases ys with
      | nil => cases hx
      | cons z zs =>
        rw [List.getLast?_cons_cons]
        exact hx

/-! ## C5: the scan finds exactly the whole-word occurrences -/

theorem ttScanAux_mem_iff :
    ∀ (s : List Char) (prevWord : Bool) (d : List Char),
      d ∈ ttScanAux prevWord s ↔ OccursFrom prevWord d s := by
  intro s
  induction s with
  | nil =>
    intro prevWord d
    constructor
    · intro h
      cases h
    · rintro ⟨pre, t1, t2, post, hs, _⟩
      exact absurd hs (by cases pre <;> simp)
  | cons c cs ih =>
    intro prevWord d
    cases hm : ttMatch? (c :: cs) with
    | none =>
      have hlhs : ttScanAux prevWord (c :: cs) = ttScanAux (isWordChar c) cs := by
        simp only [ttScanAux, hm]
      rw [hlhs, ih (isWordChar c) d]
      constructor
      · exact occursFrom_cons_of_tail
      · intro h
        rcases occursFrom_cons_elim h with ⟨hpw, t2, post, hseq, hc1, hc2, hdne, hdig, hhead⟩ | h2
        · exfalso
          have hcomp := ttMatch?_complete hc1 hc2 hdne hdig hhead
          rw [← hseq] at hcomp
          rw [hm] at hcomp
          cases hcomp
        · exact h2
    | some dmrest =>
      obtain ⟨dm, rest⟩ := dmrest
      obtain ⟨⟨t1, t2, hshape, ht1, ht2⟩, hdm, hdmdig, hresthead⟩ := ttMatch?_sound hm
      have hct1 : c = t1 := by
        injection hshape with hh _
      have hword : isWordChar c = true := by
        rw [hct1]
        exact isWordChar_of_isTT ht1
      cases prevWord with
      | true =>
        have hlhs : ttScanAux true (c :: cs) = ttScanAux (isWordChar c) cs := by
          simp only [ttScanAux, hm, if_true]
        rw [hlhs, ih (isWordChar c) d]
        constructor
        · exact occursFrom_cons_of_tail
        · intro h
          rcases occursFrom_cons_elim h with ⟨hpw, _⟩ | h2
          · cases hpw
          · exact h2
      | false =>
        have hlhs : ttScanAux false (c :: cs) = dm :: ttScanAux (isWordChar c) cs := by
          simp only [ttScanAux, hm, Bool.false_eq_true, if_false]
        rw [hlhs]
        constructor
        · intro h
          rcases List.mem_cons.mp h with rfl | htail
          · refine ⟨[], t1, t2, rest, ?_, ht1, ht2, hdm, hdmdig, fun _ => rfl, ?_, hresthead⟩
            · rw [List.nil_append]
              exact hshape
            · intro x hx
              cases hx
          · exact occursFrom_cons_of_tail ((ih (isWordChar c) d).mp htail)
        · intro h
          rcases occursFrom_cons_elim h with ⟨hpw, t2x, postx, hseq, hc1, hc2x, hdx, hdigx, hheadx⟩ | h2
          · have hcomp := ttMatch?_complete hc1 hc2x hdx hdigx hheadx
            rw [← hseq] at hcomp
            rw [hm] at hcomp
            injection hcomp with hpair
            injection hpair with hdeq hresteq
            exact List.mem_cons.mpr (Or.inl hdeq.symm)
          · exact List.mem_cons.mpr (Or.inr ((ih (isWordChar c) d).mpr h2))

theorem occursAsToken_iff_from (d s : List Char) :
    OccursAsToken d s ↔ OccursFrom false d s := by
  constructor
  · rintro ⟨pre, t1, t2, post, hs, h1, h2, hd, hdig, hbreak, hhead⟩
    exact ⟨pre, t1, t2, post, hs, h1, h2, hd, hdig, fun _ => rfl, hbreak, hhead⟩
  · rintro ⟨pre, t1, t2, post, hs, h1, h2, hd, hdig, _, hbreak, hhead⟩
    exact ⟨pre, t1, t2, post, hs, h1, h2, hd, hdig, hbreak, hhead⟩

theorem ttFindAll_mem_iff (s : String) (d : List Char) :
    d ∈ ttFindAll s ↔ OccursAsToken d s.data := by
  rw [occursAsToken_iff_from]
  exact ttScanAux_mem_iff s.data false d

/-! ## C5: the found_tasks dictionary -/

theorem ttIdString_inj {d1 d2 : List Char} (h : ttIdString d1 = ttIdString d2) :
    d1 = d2 := by
  unfold ttIdString at h
  have h2 : ("tt-" ++ String.mk d1).data = ("tt-" ++ String.mk d2).data := by rw [h]
  rw [String.data_append, String.data_append] at h2
  exact List.append_cancel_left h2

theorem mkTaskRef_task_id (repo : String) (pr : PRJson) (d : List Char) :
    (mkTaskRef repo pr d).task_id = ttIdString d := rfl

theorem insertFold_key_mem (repo : String) (pr : PRJson) :
    ∀ (ds : List (List Char)) (a : List TaskRef) (k : String),
      k ∈ (ds.foldl (insertTaskRef repo pr) a).map TaskRef.task_id
        ↔ k ∈ a.map TaskRef.task_id ∨ ∃ d ∈ ds, k = ttIdString d := by
  intro ds
  induction ds with
  | nil =>
    intro a k
    simp
  | cons d0 ds ih =>
    intro a k
    rw [List.foldl_cons]
    by_cases hmem : ttIdString d0 ∈ a.map TaskRef.task_id
    · rw [show insertTaskRef repo pr a d0 = a from by unfold insertTaskRef; rw [if_pos hmem]]
      rw [ih]
      constructor
      · rintro (h | ⟨d, hd, hk⟩)
        · exact Or.inl h
        · exact Or.inr ⟨d, List.mem_cons_of_mem _ hd, hk⟩
      · rintro (h | ⟨d, hd, hk⟩)
        · exact Or.inl h
        · rcases List.mem_cons.mp hd with rfl | hd2
          · exact Or.inl (hk ▸ hmem)
          · exact Or.inr ⟨d, hd2, hk⟩
    · rw [show insertTaskRef repo pr a d0 = a ++ [mkTaskRef repo pr d0] from by
        unfold insertTaskRef; rw [if_neg hmem]]
      rw [ih]
      have hkeys : (a ++ [mkTaskRef repo pr d0]).map TaskRef.task_id
          = a.map TaskRef.task_id ++ [ttIdString d0] := by
        rw [List.map_append]
        rfl
      rw [hkeys]
      constructor
      · rintro (h | ⟨d, hd, hk⟩)
        · rcases List.mem_append.mp h with h2 | h2
          · exact Or.inl h2
          · simp at h2
            exact Or.inr ⟨d0, List.mem_cons_self _ _, h2⟩
        · exact Or.inr ⟨d, List.mem_cons_of_mem _ hd, hk⟩
      · rintro (h | ⟨d, hd, hk⟩)
        · exact Or.inl (List.mem_append.mpr (Or.inl h))
        · rcases List.mem_cons.mp hd with rfl | hd2
          · exact Or.inl (List.mem_append.mpr (Or.inr (by simp [hk])))
          · exact Or.inr ⟨d, hd2, hk⟩

theorem insertFold_key_nodup (repo : String) (pr : PRJson) :
    ∀ (ds : List (List Char)) (a : List TaskRef),
      (a.map TaskRef.task_id).Nodup →
      ((ds.foldl (insertTaskRef repo pr) a).map TaskRef.task_id).Nodup := by
  intro ds
  induction ds with
  | nil =>
    intro a h
    exact h
  | cons d0 ds ih =>
    intro a h
    rw [List.foldl_cons]
    by_cases hmem : ttIdString d0 ∈ a.map TaskRef.task_id
    · rw [show insertTaskRef repo pr a d0 = a from by unfold insertTaskRef; rw [if_pos hmem]]
      exact ih a h
    · rw [show insertTaskRef repo pr a d0 = a ++ [mkTaskRef repo pr d0] from by
        unfold insertTaskRef; rw [if_neg hmem]]
      apply ih
      rw [List.map_append]
      rw [List.nodup_append]
      refine ⟨h, List.nodup_singleton _, ?_⟩
      intro k hk hk2
      simp [mkTaskRef] at hk2
      rw [hk2] at hk
      exact hmem hk

theorem insertFold_mem (repo : String) (pr : PRJson) :
    ∀ (ds : List (List Char)) (a : List TaskRef) (e : TaskRef),
      e ∈ ds.foldl (insertTaskRef repo pr) a
        ↔ e ∈ a ∨ ∃ d ∈ ds, e = mkTaskRef repo pr d
            ∧ ttIdString d ∉ a.map TaskRef.task_id := by
  intro ds
  induction ds with
  | nil =>
    intro a e
    simp
  | cons d0 ds ih =>
    intro a e
    rw [List.foldl_cons]
    by_cases hmem : ttIdString d0 ∈ a.map TaskRef.task_id
    · rw [show insertTaskRef repo pr a d0 = a from by unfold insertTaskRef; rw [if_pos hmem]]
      rw [ih]
      constructor
      · rintro (h | ⟨d, hd, he, hk⟩)
        · exact Or.inl h
        · exact Or.inr ⟨d, List.mem_cons_of_mem _ hd, he, hk⟩
      · rintro (h | ⟨d, hd, he, hk⟩)
        · exact Or.inl h
        · rcases List.mem_cons.mp hd with rfl | hd2
          · exact absurd hmem hk
          · exact Or.inr ⟨d, hd2, he, hk⟩
    · rw [show insertTaskRef repo pr a d0 = a ++ [mkTaskRef repo pr d0] from by
        unfold insertTaskRef; rw [if_neg hmem]]
      rw [ih]
      have hkeys : (a ++ [mkTaskRef repo pr d0]).map TaskRef.task_id
          = a.map TaskRef.task_id ++ [ttIdString d0] := by
        rw [List.map_append]
        rfl
      constructor
      · rintro (h | ⟨d, hd, he, hk⟩)
        · rcases List.mem_append.mp h with h2 | h2
          · exact Or.inl h2
          · simp at h2
            exact Or.inr ⟨d0, List.mem_cons_self _ _, h2, hmem⟩
        · rw [hkeys] at hk
          have hk1 : ttIdString d ∉ a.map TaskRef.task_id := fun hx =>
            hk (List.mem_append.mpr (Or.inl hx))
          exact Or.inr ⟨d, List.mem_cons_of_mem _ hd, he, hk1⟩
      · rintro (h | ⟨d, hd, he, hk⟩)
        · exact Or.inl (List.mem_append.mpr (Or.inl h))
        · rcases List.mem_cons.mp hd with rfl | hd2
          · exact Or.inl (List.mem_append.mpr (Or.inr (by simp [he])))
          · by_cases hkey0 : ttIdString d = ttIdString d0
            · have hdd : d = d0 := ttIdString_inj hkey0
              subst hdd
              exact Or.inl (List.mem_append.mpr (Or.inr (by simp [he])))
            · refine Or.inr ⟨d, hd2, he, ?_⟩
              rw [hkeys]
              intro hx
              rcases List.mem_append.mp hx with h2 | h2
              · exact hk h2
              · simp at h2
                exact hkey0 h2

theorem foundFold_key_mem (repo : String) :
    ∀ (prs : List PRJson) (a : List TaskRef) (k : String),
      k ∈ (prs.foldl (addTaskRefs repo) a).map TaskRef.task_id
        ↔ k ∈ a.map TaskRef.task_id
          ∨ ∃ pr ∈ prs, ∃ d ∈ prTaskDigits pr, k = ttIdString d := by
  intro prs
  induction prs with
  | nil =>
    intro a k
    simp
  | cons p ps ih =>
    intro a k
    rw [List.foldl_cons, ih]
    rw [show addTaskRefs repo a p = (prTaskDigits p).foldl (insertTaskRef repo p) a from rfl]
    rw [insertFold_key_mem]
    constructor
    · rintro ((h | ⟨d, hd, hk⟩) | ⟨pr, hpr, d, hd, hk⟩)
      · exact Or.inl h
      · exact Or.inr ⟨p, List.mem_cons_self _ _, d, hd, hk⟩
      · exact Or.inr ⟨pr, List.mem_cons_of_mem _ hpr, d, hd, hk⟩
    · rintro (h | ⟨pr, hpr, d, hd, hk⟩)
      · exact Or.inl (Or.inl h)
      · rcases List.mem_cons.mp hpr with rfl | hpr2
        · exact Or.inl (Or.inr ⟨d, hd, hk⟩)
        · exact Or.inr ⟨pr, hpr2, d, hd, hk⟩

theorem foundFold_key_nodup (repo : String) :
    ∀ (prs : List PRJson) (a : List TaskRef),
      (a.map TaskRef.task_id).Nodup →
      ((prs.foldl (addTaskRefs repo) a).map TaskRef.task_id).Nodup := by
  intro prs
  induction prs with
  | nil =>
    intro a h
    exact h
  | cons p ps ih =>
    intro a h
    rw [List.foldl_cons]
    exact ih _ (insertFold_key_nodup repo p (prTaskDigits p) a h)

theorem foundFold_mem (repo : String) :
    ∀ (prs : List PRJson) (a : List TaskRef) (e : TaskRef),
      e ∈ prs.foldl (addTaskRefs repo) a
        ↔ e ∈ a ∨ ∃ d pr, ttIdString d ∉ a.map TaskRef.task_id
            ∧ prs.find? (fun pr => decide (d ∈ prTaskDigits pr)) = some pr
            ∧ e = mkTaskRef repo pr d := by
  intro prs
  induction prs with
  | nil =>
    intro a e
    simp
  | cons p ps ih =>
    intro a e
    rw [List.foldl_cons, ih]
    constructor
    · rintro (h | ⟨d, pr, hk, hfind, he⟩)
      · rcases (insertFold_mem repo p (prTaskDigits p) a e).mp h with h2 | ⟨d, hd, he, hk⟩
        · exact Or.inl h2
        · refine Or.inr ⟨d, p, hk, ?_, he⟩
          exact List.find?_cons_of_pos ps (by simpa using hd)
      · have hka : ttIdString d ∉ a.map TaskRef.task_id := by
          intro hx
          exact hk ((insertFold_key_mem repo p (prTaskDigits p) a _).mpr (Or.inl hx))
        have hdp : d ∉ prTaskDigits p := by
          intro hx
          exact hk ((insertFold_key_mem repo p (prTaskDigits p) a _).mpr
            (Or.inr ⟨d, hx, rfl⟩))
        refine Or.inr ⟨d, pr, hka, ?_, he⟩
        rw [List.find?_cons_of_neg ps (by simpa using hdp)]
        exact hfind
    · rintro (h | ⟨d, pr, hk, hfind, he⟩)
      · exact Or.inl ((insertFold_mem repo p (prTaskDigits p) a e).mpr (Or.inl h))
      · by_cases hdp : d ∈ prTaskDigits p
        · rw [List.find?_cons_of_pos ps (by simpa using hdp)] at hfind
          injection hfind with hpr
          subst hpr
          exact Or.inl ((insertFold_mem repo p (prTaskDigits p) a e).mpr
            (Or.inr ⟨d, hdp, he, hk⟩))
        · rw [List.find?_cons_of_neg ps (by simpa using hdp)] at hfind
          refine Or.inr ⟨d, pr, ?_, hfind, he⟩
          intro hx
          rcases (insertFold_key_mem repo p (prTaskDigits p) a _).mp hx with h2 | ⟨d2, hd2, hkeq⟩
          · exact hk h2
          · rw [ttIdString_inj hkeq] at hdp
            exact hdp hd2

/-! ## C5: main theorem -/

/-- C5: `find_all_core` — the post-parse logic of
`GitHubIntegration.find_all_task_ids_in_repo` — reports a task id `tt-<d>`
exactly when `tt-<d>` occurs as a whole-word token in the branch name
or title (so a title containing only `tt-10` never yields `tt-1`); ids are
reported once each (first occurrence wins: every returned entry is built
from the first PR, in CLI order, whose branch or title mentions its id),
and the result is sorted ascending by the numeric suffix. -/
theorem find_all_task_ids_spec (repo : String) (prs : List PRJson) :
    (∀ d : List Char,
      ((∃ r ∈ find_all_core repo prs, r.task_id = ttIdString d) ↔
        ∃ pr ∈ prs, OccursAsToken d (jsonStr pr.headRefName).data
          ∨ OccursAsToken d (jsonStr pr.title).data))
    ∧ ((find_all_core repo prs).map TaskRef.task_id).Nodup
    ∧ (find_all_core repo prs).Sorted (fun a b => taskRefKey a ≤ taskRefKey b)
    ∧ (∀ r ∈ find_all_core repo prs, ∃ d pr,
        prs.find? (fun pr => decide (d ∈ prTaskDigits pr)) = some pr
        ∧ r = mkTaskRef repo pr d) := by
  have hperm := List.mergeSort_perm (foundTaskRefs repo prs)
    (fun a b => decide (taskRefKey a ≤ taskRefKey b))
  have hfound : foundTaskRefs repo prs = prs.foldl (addTaskRefs repo) [] := rfl
  refine ⟨?_, ?_, ?_, ?_⟩
  · intro d
    constructor
    · rintro ⟨r, hr, hid⟩
      have hrf : r ∈ foundTaskRefs repo prs := hperm.mem_iff.mp hr
      rw [hfound] at hrf
      have hkey : ttIdString d ∈ (prs.foldl (addTaskRefs repo) []).map TaskRef.task_id := by
        rw [List.mem_map]
        exact ⟨r, hrf, hid⟩
      rcases (foundFold_key_mem repo prs [] _).mp hkey with h | ⟨pr, hpr, d2, hd2, hkeq⟩
      · simp at h
      · rw [ttIdString_inj hkeq]
        refine ⟨pr, hpr, ?_⟩
        unfold prTaskDigits at hd2
        rcases List.mem_append.mp hd2 with h2 | h2
        · exact Or.inl ((ttFindAll_mem_iff _ _).mp h2)
        · exact Or.inr ((ttFindAll_mem_iff _ _).mp h2)
    · rintro ⟨pr, hpr, hocc⟩
      have hd2 : d ∈ prTaskDigits pr := by
        unfold prTaskDigits
        rcases hocc with h | h
        · exact List.mem_append.mpr (Or.inl ((ttFindAll_mem_iff _ _).mpr h))
        · exact List.mem_append.mpr (Or.inr ((ttFindAll_mem_iff _ _).mpr h))
      have hkey : ttIdString d ∈ (prs.foldl (addTaskRefs repo) []).map TaskRef.task_id :=
        (foundFold_key_mem repo prs [] _).mpr (Or.inr ⟨pr, hpr, d, hd2, rfl⟩)
      rw [List.mem_map] at hkey
      obtain ⟨r, hr, hid⟩ := hkey
      rw [← hfound] at hr
      exact ⟨r, hperm.mem_iff.mpr hr, hid⟩
  · have hnd : ((foundTaskRefs repo prs).map TaskRef.task_id).Nodup := by
      rw [hfound]
      exact foundFold_key_nodup repo prs [] (by simp)
    exact ((hperm.map TaskRef.task_id).nodup_iff).mpr hnd
  · have hs := @List.sorted_mergeSort TaskRef
      (fun a b : TaskRef => decide (taskRefKey a ≤ taskRefKey b))
      (fun a b c hab hbc => by
        simp only [decide_eq_true_eq] at hab hbc ⊢
        exact le_trans hab hbc)
      (fun a b => by
        rcases Nat.le_total (taskRefKey a) (taskRefKey b) with hle | hle
        · simp [hle]
        · simp [hle])
      (foundTaskRefs repo prs)
    exact hs.imp (fun hab => by simpa using hab)
  · intro r hr
    have hrf : r ∈ foundTaskRefs repo prs := hperm.mem_iff.mp hr
    rw [hfound] at hrf
    rcases (foundFold_mem repo prs [] r).mp hrf with h | ⟨d, pr, _, hfind, he⟩
    · cases h
    · exact ⟨d, pr, hfind, he⟩

/-! ## Witnesses instantiating the universally quantified theorems -/

/-- Witness for C4 at a concrete trace: after creating `tt-1` and linking a
PR to it, the task row is present, and the theorem yields its link row. -/
theorem reachable_linked_iff_has_link_witness :
    (⟨1, "tt-1", "linked", ""⟩ : TaskRow)
        ∈ (runOps [Op.createTask "tt-1", Op.createPR "tt-1" "o/r" 1 "T" none]).1.tasks
    ∧ ("linked" = "linked" →
        ∃ p ∈ (runOps [Op.createTask "tt-1", Op.createPR "tt-1" "o/r" 1 "T" none]).1.prs,
          p.task_code = "tt-1") :=
  ⟨by decide,
   (reachable_linked_iff_has_link [Op.createTask "tt-1", Op.createPR "tt-1" "o/r" 1 "T" none]
     ⟨1, "tt-1", "linked", ""⟩ (by decide)).1⟩

/-- Witness for C5 at a concrete PR list: a branch mentioning `tt-2` and a
title mentioning `tt-10` yield a duplicate-free id list. -/
theorem find_all_task_ids_spec_witness :
    ((find_all_core "o/r" [⟨some 7, some "Fix tt-10", none, some "feature/tt-2-x"⟩]).map
      TaskRef.task_id).Nodup :=
  (find_all_task_ids_spec "o/r" [⟨some 7, some "Fix tt-10", none, some "feature/tt-2-x"⟩]).2.1

/-- Witness for C8 at a concrete store: deleting `tt-1` from `exDB` returns
`true` exactly because the task exists. -/
theorem delete_task_spec_witness :
    ((delete_task exDB "tt-1").1 = true ↔ ∃ t ∈ exDB.tasks, t.code = "tt-1") :=
  (delete_task_spec exDB "tt-1").1

/-- Witness for C9 at a concrete PR list: a PR whose branch contains `TT-1`
is reported, case-insensitively. -/
theorem find_prs_with_task_id_spec_witness :
    matching_prs "tt-1" [⟨some 3, some "x", none, some "TT-1-fix"⟩]
      = [⟨some 3, "x", "", "TT-1-fix"⟩] := by
  have h := (find_prs_with_task_id_spec "tt-1" [⟨some 3, some "x", none, some "TT-1-fix"⟩]).1
  rw [h]
  decide
